import Mathlib

/-!
Verification of the tsumugu mirroring tool against its specification.

The Rust sources are shallowly embedded: pure functions become Lean
functions, the stateful parts (downloader, reconciler, worker pool)
become explicit state passing or small-step transition relations.
Strings are manipulated as lists of characters; machine integers are
modelled as Nat/Int (sizes and timestamps stay far below the overflow
range of u64/i64); timestamps are whole seconds.
-/

namespace Tsumugu

/-! ## Data model (src/listing: FileType, SizeUnit, FileSize, ListItem) -/

/-- File kind of a remote entry (enum FileType in src/list.rs). -/
inductive FileTypeM
  | file
  | directory
deriving DecidableEq, Repr

/-- Size units (enum SizeUnit in src/list.rs). -/
inductive SizeUnitM
  | B
  | K
  | M
  | G
  | T
  | P
deriving DecidableEq, Repr

/-- SizeUnit::get_exp from src/list.rs. -/
def SizeUnitM.get_exp : SizeUnitM → Nat
  | .B => 0
  | .K => 1
  | .M => 2
  | .G => 3
  | .T => 4
  | .P => 5

/-- FileSize from src/list.rs.  The humanized numeric value is modelled as an
exact rational; f64 rounding is out of scope (the values occurring in listings
are short decimal literals). -/
inductive FileSizeM
  | precise (n : Nat)
  | humanizedBinary (q : ℚ) (u : SizeUnitM)
  | humanizedDecimal (q : ℚ) (u : SizeUnitM)
deriving DecidableEq, Repr

/-- ListItem as consumed by the comparator (struct ListItem of the listing
module: url and name do not influence the comparator decision, the naive mtime
is modelled as seconds, skip_check as in the source). -/
structure ListItemM where
  type_ : FileTypeM
  size : Option FileSizeM
  mtime : Int
  skip_check : Bool
deriving DecidableEq, Repr

/-- Result of path.metadata() for the local file: kind, byte length and mtime
(UTC seconds).  A stat failure (NotFound or any other error) is modelled as
none, matching the code which returns "download" for every Err. -/
structure LocalMetaM where
  ftype : FileTypeM
  len : Nat
  mtime : Int
deriving DecidableEq, Repr

/-! ## src/compare.rs -/

/-- compare_filetype from src/compare.rs. -/
def compare_filetype (fstype : FileTypeM) : FileTypeM → Bool
  | .file => fstype = .file
  | .directory => fstype = .directory

/-- Truncating division as performed by Rust i64 division; chrono's
Duration::num_hours and num_minutes are num_seconds divided this way. -/
def tdivM (a b : Int) : Int := a.tdiv b

/-- naive_to_utc from src/utils.rs: interpret a naive timestamp in the given
fixed offset (seconds east of UTC), or as UTC when no timezone is known. -/
def naive_to_utc (naive : Int) (timezone : Option Int) : Int :=
  match timezone with
  | none => naive
  | some off => naive - off

/-- should_download_by_list from src/compare.rs, with the filesystem stat
result passed in as localMeta. -/
def should_download_by_list (localMeta : Option LocalMetaM) (remote : ListItemM)
    (remote_timezone : Option Int) (skip_if_exists size_only : Bool) : Bool :=
  match localMeta with
  | none => true
  | some local_metadata =>
    if skip_if_exists || remote.skip_check then false
    else if ¬ compare_filetype local_metadata.ftype remote.type_ then true
    else
      let local_size := local_metadata.len
      let is_size_match : Bool :=
        match remote.size.getD (.precise 0) with
        | .precise s => decide (local_size = s)
        | .humanizedBinary q u =>
            decide (|((local_size : ℚ) / (1024 : ℚ) ^ u.get_exp) - q| < 2)
        | .humanizedDecimal q u =>
            decide (|((local_size : ℚ) / (1000 : ℚ) ^ u.get_exp) - q| < 2)
      if ¬ is_size_match then true
      else if size_only then false
      else
        let remote_mtime := naive_to_utc remote.mtime remote_timezone
        let offset := remote_mtime - local_metadata.mtime
        match remote_timezone with
        | none => decide ((tdivM offset 3600).natAbs > 24)
        | some _ => decide ((tdivM offset 60).natAbs > 1)

/-! ## Arithmetic helpers for the mtime tolerance -/

theorem natAbs_tdiv_natCast (a : Int) (b : Nat) :
    (a.tdiv (b : Int)).natAbs = a.natAbs / b := by
  cases a with
  | ofNat m => rfl
  | negSucc m =>
      show (-(Int.ofNat ((m + 1) / b))).natAbs = (m + 1) / b
      rw [Int.natAbs_neg]
      rfl

theorem lt_div_iff_succ_mul_le (c n k : Nat) (hk : 0 < k) :
    c < n / k ↔ (c + 1) * k ≤ n := by
  rw [Nat.lt_iff_add_one_le, Nat.le_div_iff_mul_le hk]

theorem hours_gt_iff (d : Int) :
    24 < (tdivM d 3600).natAbs ↔ 25 * 3600 ≤ d.natAbs := by
  have h : (3600 : Int) = ((3600 : Nat) : Int) := rfl
  rw [tdivM, h, natAbs_tdiv_natCast, lt_div_iff_succ_mul_le]
  omega

theorem minutes_gt_iff (d : Int) :
    1 < (tdivM d 60).natAbs ↔ 2 * 60 ≤ d.natAbs := by
  have h : (60 : Int) = ((60 : Nat) : Int) := rfl
  rw [tdivM, h, natAbs_tdiv_natCast, lt_div_iff_succ_mul_le]
  omega

theorem compare_filetype_self (ft : FileTypeM) : compare_filetype ft ft = true := by
  cases ft <;> rfl

/-! ## Claim C5: mtime tolerance of the freshness comparator -/

/-- C5 counterexample: with no timezone supplied, a remote/local mtime
difference of 87000 s = 24 h 10 min strictly exceeds the stated ±24 h
tolerance, yet the comparator decides not to download (the code compares the
truncated whole-hour difference against 24, so only differences of at least
25 h trigger a download). -/
theorem C5_counterexample :
    (24 * 3600 : Int) < 87000 ∧
    should_download_by_list (some ⟨.file, 100, 0⟩)
      ⟨.file, some (.precise 100), 87000, false⟩ none false false = false := by
  decide

/-- C5 (amended): when the local file exists with matching kind and (precise)
size, no skip flag applies and size-only is not set, the decision is download
iff the whole-hour (resp. whole-minute) truncation of the difference between
the remote mtime (naive value interpreted in the supplied timezone, or as UTC
when none) and the local mtime exceeds 24 hours — i.e. |difference| ≥ 25 h —
when no timezone was supplied, resp. exceeds 1 minute — i.e. |difference| ≥
2 min — when one was; in particular an offset of +25 h with no timezone yields
download. -/
theorem C5_mtime_tolerance (len : Nat) (lmtime naive : Int) (tz : Option Int) :
    should_download_by_list (some ⟨.file, len, lmtime⟩)
      ⟨.file, some (.precise len), naive, false⟩ tz false false = true ↔
      (match tz with
       | none => 25 * 3600 ≤ (naive - lmtime).natAbs
       | some off => 2 * 60 ≤ (naive - off - lmtime).natAbs) := by
  cases tz with
  | none =>
      simp [should_download_by_list, compare_filetype, naive_to_utc, hours_gt_iff]
  | some off =>
      simp [should_download_by_list, compare_filetype, naive_to_utc, minutes_gt_iff]

/-! ## Claim C10: absent remote size is treated as a precise 0 -/

/-- C10: for a remote ListItem with absent size, when skip_check and
skip_if_exists are both false and a local file of the matching kind exists,
the comparator takes size.unwrap_or(Precise(0)), so any local file of nonzero
length is a size mismatch and the decision is download (whatever the timezone
and the size-only flag, since the size check precedes both). -/
theorem C10_missing_size_zero (ft : FileTypeM) (len : Nat) (lmtime naive : Int)
    (tz : Option Int) (sizeOnly : Bool) (h : len ≠ 0) :
    should_download_by_list (some ⟨ft, len, lmtime⟩)
      ⟨ft, none, naive, false⟩ tz false sizeOnly = true := by
  simp [should_download_by_list, compare_filetype_self, h]

/-- C10 witness: a 1-byte local file against a size-less remote item is
downloaded. -/
theorem C10_missing_size_zero_witness :
    should_download_by_list (some ⟨.file, 1, 0⟩)
      ⟨.file, none, 0, false⟩ none false false = true :=
  C10_missing_size_zero .file 1 0 0 none false (by decide)

/-! ## src/regex_process.rs: the exclusion engine

Patterns are modelled in the regex fragment tsumugu's rules use: sequences of
literal runs and of `$\x7b...\x7d` variables (REGEX_REPLACEMENTS), which
expand either to an enumerated alternation (inner) or to the wildcard
`(?<distro_ver>.+)` (rev_inner).  Matching is the regex crate's unanchored
boolean is_match restricted to this fragment. -/

/-- Atom of a user-written pattern: a literal run, or a replacement variable
carried with its enumerated alternatives. -/
inductive PatAtom
  | lit (s : List Char)
  | var (alts : List (List Char))
deriving DecidableEq, Repr

/-- Atom of an expanded (compiled) pattern. -/
inductive MAtom
  | lit (s : List Char)
  | alt (alts : List (List Char))
  | anyPlus
deriving DecidableEq, Repr

/-- Does the atom sequence match some prefix of cs (match anchored at this
start position)? -/
def matchFrom : List MAtom → List Char → Bool
  | [], _ => true
  | .lit s :: rest, cs => s.isPrefixOf cs && matchFrom rest (cs.drop s.length)
  | .alt alts :: rest, cs =>
      alts.any fun a => a.isPrefixOf cs && matchFrom rest (cs.drop a.length)
  | .anyPlus :: rest, cs =>
      (List.range cs.length).any fun k => matchFrom rest (cs.drop (k + 1))

/-- Unanchored boolean match: Regex::is_match tries every start position. -/
def matchUnanchored (p : List MAtom) (cs : List Char) : Bool :=
  (List.range (cs.length + 1)).any fun i => matchFrom p (cs.drop i)

/-- Expansion with the real alternatives: the s1 regex of
ExpandedRegex::from_str. -/
def expandReal : PatAtom → MAtom
  | .lit s => .lit s
  | .var alts => .alt alts

/-- Expansion replacing each variable by `(?<distro_ver>.+)`: the s2 regex of
ExpandedRegex::from_str. -/
def expandWild : PatAtom → MAtom
  | .lit s => .lit s
  | .var _ => .anyPlus

/-- Textual rendering of the expanded pattern, i.e. what inner.as_str()
returns; ExclusionManager::new compares these strings with starts_with. -/
def renderInner : List PatAtom → List Char
  | [] => []
  | .lit s :: rest => s ++ renderInner rest
  | .var alts :: rest =>
      "(?<distro_ver>".toList ++ List.intercalate "|".toList alts ++ ")".toList
        ++ renderInner rest

/-- ExpandedRegex, kept as its source pattern; inner and rev_inner are
recovered by expansion. -/
structure ExpandedRegexM where
  pat : List PatAtom
deriving DecidableEq, Repr

/-- Text of the compiled inner regex (inner.as_str()). -/
def ExpandedRegexM.innerStr (e : ExpandedRegexM) : List Char := renderInner e.pat

/-- ExpandedRegex::is_match. -/
def ExpandedRegexM.is_match (e : ExpandedRegexM) (text : List Char) : Bool :=
  matchUnanchored (e.pat.map expandReal) text

/-- ExpandedRegex::is_others_match: the wildcard form matches but the real
form does not. -/
def ExpandedRegexM.is_others_match (e : ExpandedRegexM) (text : List Char) : Bool :=
  !e.is_match text && matchUnanchored (e.pat.map expandWild) text

/-- Comparison from src/regex_process.rs. -/
inductive Comparison
  | Stop
  | ListOnly
  | Ok
deriving DecidableEq, Repr

/-- ExclusionManager from src/regex_process.rs. -/
structure ExclusionManagerM where
  instant_stop_regexes : List ExpandedRegexM
  list_only_regexes : List ExpandedRegexM
  include_regexes : List ExpandedRegexM
deriving DecidableEq, Repr

/-- The partition loop of ExclusionManager::new, returning
(instant_stop_regexes, list_only_regexes) in order. -/
def newLoop : List ExpandedRegexM → List ExpandedRegexM →
    List ExpandedRegexM × List ExpandedRegexM
  | [], _ => ([], [])
  | e :: rest, inclusions =>
      let p := newLoop rest inclusions
      if inclusions.any fun i => e.innerStr.isPrefixOf i.innerStr then
        (p.1, e :: p.2)
      else
        (e :: p.1, p.2)

/-- ExclusionManager::new. -/
def ExclusionManagerM.new (exclusions inclusions : List ExpandedRegexM) :
    ExclusionManagerM :=
  let p := newLoop exclusions inclusions
  { instant_stop_regexes := p.1
    list_only_regexes := p.2
    include_regexes := inclusions }

/-- ExclusionManager::match_str: includes first, then instant-stop, then the
is_others_match shortcut over includes, then list-only, else Ok. -/
def ExclusionManagerM.match_str (m : ExclusionManagerM) (text : List Char) :
    Comparison :=
  if m.include_regexes.any fun r => r.is_match text then .Ok
  else if m.instant_stop_regexes.any fun r => r.is_match text then .Stop
  else if m.include_regexes.any fun r => r.is_others_match text then .Stop
  else if m.list_only_regexes.any fun r => r.is_match text then .ListOnly
  else .Ok

/-- Alternatives of the REGEX_REPLACEMENTS entry for the Fedora variable. -/
def FEDORA_CURRENT : List (List Char) :=
  ["37".toList, "38".toList, "39".toList, "40".toList]

/-- The partition loop yields exactly the two order-preserving filters of the
exclusion list by the "pattern text of the exclude is a text prefix of some
include" test. -/
theorem newLoop_eq (exclusions inclusions : List ExpandedRegexM) :
    newLoop exclusions inclusions =
      (exclusions.filter
        (fun e => !(inclusions.any fun i => e.innerStr.isPrefixOf i.innerStr)),
       exclusions.filter
        (fun e => inclusions.any fun i => e.innerStr.isPrefixOf i.innerStr)) := by
  induction exclusions with
  | nil => rfl
  | cons e rest ih =>
      by_cases h : (inclusions.any fun i => e.innerStr.isPrefixOf i.innerStr) = true
      · simp [newLoop, ih, List.filter_cons, h]
      · simp only [Bool.not_eq_true] at h
        simp [newLoop, ih, List.filter_cons, h]

/-! ## Claim C6: construction and precedence of the exclusion engine -/

/-- C6: at construction, every exclude whose (expanded) pattern text is a
textual prefix of at least one include's pattern text is classified list-only
and every remaining exclude instant-stop, preserving order; at verdict time a
path matching any include returns Ok before any stop or list-only rule is
consulted; with exclude dists/ and include dists/bookworm/ the exclude is
reclassified list-only, the verdict is Ok on dists/bookworm/foo and ListOnly
on dists/sid/foo. -/
theorem C6_exclusion_classification :
    (∀ excl incl : List ExpandedRegexM,
      (ExclusionManagerM.new excl incl).list_only_regexes =
        excl.filter
          (fun e => incl.any fun i => e.innerStr.isPrefixOf i.innerStr) ∧
      (ExclusionManagerM.new excl incl).instant_stop_regexes =
        excl.filter
          (fun e => !(incl.any fun i => e.innerStr.isPrefixOf i.innerStr))) ∧
    (∀ (m : ExclusionManagerM) (t : List Char),
      (m.include_regexes.any fun r => r.is_match t) = true →
        m.match_str t = .Ok) ∧
    ((ExclusionManagerM.new [⟨[.lit "dists/".toList]⟩]
        [⟨[.lit "dists/bookworm/".toList]⟩]).list_only_regexes =
          [⟨[.lit "dists/".toList]⟩] ∧
     (ExclusionManagerM.new [⟨[.lit "dists/".toList]⟩]
        [⟨[.lit "dists/bookworm/".toList]⟩]).instant_stop_regexes = [] ∧
     (ExclusionManagerM.new [⟨[.lit "dists/".toList]⟩]
        [⟨[.lit "dists/bookworm/".toList]⟩]).match_str
          "dists/bookworm/foo".toList = .Ok ∧
     (ExclusionManagerM.new [⟨[.lit "dists/".toList]⟩]
        [⟨[.lit "dists/bookworm/".toList]⟩]).match_str
          "dists/sid/foo".toList = .ListOnly) := by
  refine ⟨?_, ?_, ?_⟩
  · intro excl incl
    constructor <;> simp [ExclusionManagerM.new, newLoop_eq]
  · intro m t h
    simp [ExclusionManagerM.match_str, h]
  · decide

/-- C6 witness: applying the include-precedence part at a concrete manager
whose single include matches the probed path. -/
theorem C6_exclusion_classification_witness :
    (ExclusionManagerM.new [] [⟨[.lit "pool/".toList]⟩]).match_str
      "pool/main".toList = .Ok :=
  C6_exclusion_classification.2.1
    (ExclusionManagerM.new [] [⟨[.lit "pool/".toList]⟩])
    "pool/main".toList (by decide)

/-! ## Claim C7: the is_others_match shortcut stops sibling versions -/

/-- C7: for every path matched by no include regex and no instant-stop regex,
if some include whose pattern embeds an enumerated alternative matches the
path with the alternative replaced by the wildcard but not with the real
alternatives (is_others_match), the verdict is Stop; the conclusion holds
whatever the list-only rules are, i.e. the shortcut is consulted before
list-only. -/
theorem C7_shortcut_stop (m : ExclusionManagerM) (t : List Char)
    (hinc : ∀ r ∈ m.include_regexes, r.is_match t = false)
    (hstop : ∀ r ∈ m.instant_stop_regexes, r.is_match t = false)
    (hother : ∃ r ∈ m.include_regexes, r.is_others_match t = true) :
    m.match_str t = .Stop := by
  have h1 : (m.include_regexes.any fun r => r.is_match t) = false := by
    rw [List.any_eq_false]
    intro r hr
    simp [hinc r hr]
  have h2 : (m.instant_stop_regexes.any fun r => r.is_match t) = false := by
    rw [List.any_eq_false]
    intro r hr
    simp [hstop r hr]
  have h3 : (m.include_regexes.any fun r => r.is_others_match t) = true := by
    rw [List.any_eq_true]
    obtain ⟨r, hr, hx⟩ := hother
    exact ⟨r, hr, hx⟩
  simp [ExclusionManagerM.match_str, h1, h2, h3]

/-- C7 witness: include fedora/(37|38|39|40)/ with a list-only rule present;
the sibling version path fedora/33/ is stopped by the shortcut. -/
theorem C7_shortcut_stop_witness :
    (ExclusionManagerM.new [⟨[.lit "fedora/".toList]⟩]
      [⟨[.lit "fedora/".toList, .var FEDORA_CURRENT, .lit "/".toList]⟩]).match_str
      "fedora/33/".toList = .Stop :=
  C7_shortcut_stop _ _ (by decide) (by decide) (by decide)

/-! ## src/cli/sync.rs: download-task entry, reconciler and exit code

Filesystem paths are modelled as lists of components (each a list of
characters), as PathBuf holds them; RemoteObservedSet (remote_list in the
source) as the list of inserted paths. -/

/-- One path component. -/
abbrev Seg := List Char

/-- A filesystem path, as its list of components. -/
abbrev FsPath := List Seg

/-- Vec<String>::join("/") on the task's relative segments. -/
def joinRel (segs : List Seg) : Seg := List.intercalate "/".toList segs

/-- PathBuf::from(relative).join(name) at the string level: an empty relative
yields just the name. -/
def pathJoinStr (rel name : Seg) : Seg :=
  if rel = [] then name else rel ++ "/".toList ++ name

/-- How far the Download arm of the worker loop gets before the freshness
comparator would run (src/cli/sync.rs, Download task entry). -/
inductive DownloadEntryOutcome
  | dirStop
  | dedupSkip
  | fileStop
  | proceed
deriving DecidableEq, Repr

/-- Entry of a Download task: the relative-directory exclusion check (shared
with listing tasks), then the RemoteObservedSet insert used as dedup latch,
then the exclusion check on the relative file path.  Returns the updated
observed set and how far the task got. -/
def downloadTaskEntry (em : ExclusionManagerM) (remoteList : List FsPath)
    (downloadDir : FsPath) (relSegs : List Seg) (name : Seg) :
    List FsPath × DownloadEntryOutcome :=
  let relative := joinRel relSegs
  if em.match_str relative = .Stop then (remoteList, .dirStop)
  else
    let cwd := downloadDir ++ relSegs
    let expected_path := cwd ++ [name]
    let relative_filepath := pathJoinStr relative name
    if expected_path ∈ remoteList then (remoteList, .dedupSkip)
    else
      let remoteList' := expected_path :: remoteList
      if em.match_str relative_filepath = .Stop then (remoteList', .fileStop)
      else (remoteList', .proceed)

/-- One entry yielded by the walkdir loop of the reconciler: a walk error, or
an entry at the given path relative to the mirror root (walkdir only yields
paths under the root it walks).  isDir selects remove_dir vs remove_file;
removeOk tells whether that removal would succeed. -/
inductive WalkEntry
  | err
  | ok (rel : List Seg) (isDir : Bool) (removeOk : Bool)
deriving DecidableEq, Repr

/-- The reconciliation options of SyncArgs. -/
structure ReconArgs where
  dryRun : Bool
  noDelete : Bool
  maxDelete : Nat
deriving DecidableEq, Repr

/-- The walkdir loop of src/cli/sync.rs (lines 472-515): state is the exit
code, the deletion counter and the list of paths actually removed (attempted
removals; a failed removal sets exit code 4 and continues). -/
def reconLoop (args : ReconArgs) (downloadDir : FsPath)
    (remoteList : List FsPath) :
    List WalkEntry → Nat → Nat → List FsPath → Nat × List FsPath
  | [], ec, _, del => (ec, del)
  | .err :: _, ec, _, del => (if args.dryRun then ec else 1, del)
  | .ok rel _ rmOk :: rest, ec, delCnt, del =>
      let path := downloadDir ++ rel
      if path ∈ remoteList then
        reconLoop args downloadDir remoteList rest ec delCnt del
      else if args.noDelete then
        reconLoop args downloadDir remoteList rest ec delCnt del
      else if args.maxDelete ≤ delCnt then (25, del)
      else if args.dryRun then
        reconLoop args downloadDir remoteList rest ec (delCnt + 1) del
      else
        reconLoop args downloadDir remoteList rest
          (if rmOk then ec else 4) (delCnt + 1) (del ++ [path])

/-- The epilogue of sync (src/cli/sync.rs lines 461-530): when
failure_listing is set nothing is walked and the exit code is 1; otherwise
the walk loop runs; a set failure_downloading flag finally overwrites the
exit code with 2.  Returns the exit code and the removed paths. -/
def sync_epilogue (args : ReconArgs) (downloadDir : FsPath)
    (remoteList : List FsPath) (entries : List WalkEntry)
    (failureListing failureDownloading : Bool) : Nat × List FsPath :=
  let r :=
    if failureListing then (1, [])
    else reconLoop args downloadDir remoteList entries 0 0 []
  (if failureDownloading then 2 else r.1, r.2)

/-- Invariant of the walk loop: every removed path extends the mirror root
and is absent from the observed set, and the removal count never exceeds
max-delete. -/
theorem reconLoop_spec (args : ReconArgs) (dd : FsPath) (remote : List FsPath) :
    ∀ (entries : List WalkEntry) (ec delCnt : Nat) (del : List FsPath),
      (∀ p ∈ del, dd <+: p ∧ p ∉ remote) →
      del.length ≤ delCnt → delCnt ≤ args.maxDelete →
      (∀ p ∈ (reconLoop args dd remote entries ec delCnt del).2,
          dd <+: p ∧ p ∉ remote) ∧
      (reconLoop args dd remote entries ec delCnt del).2.length ≤ args.maxDelete := by
  intro entries
  induction entries with
  | nil =>
      intro ec delCnt del hgood hlen hcnt
      exact ⟨hgood, le_trans hlen hcnt⟩
  | cons e rest ih =>
      intro ec delCnt del hgood hlen hcnt
      match e with
      | .err => exact ⟨hgood, le_trans hlen hcnt⟩
      | .ok rel isDir rmOk =>
          simp only [reconLoop]
          by_cases hmem : (dd ++ rel) ∈ remote
          · simp only [hmem, if_true]
            exact ih ec delCnt del hgood hlen hcnt
          · simp only [hmem, if_false]
            by_cases hnd : args.noDelete = true
            · simp only [hnd, if_true]
              exact ih ec delCnt del hgood hlen hcnt
            · simp only [hnd, if_false]
              by_cases hmax : args.maxDelete ≤ delCnt
              · simp only [hmax, if_true]
                exact ⟨hgood, le_trans hlen hcnt⟩
              · simp only [hmax, if_false]
                by_cases hdr : args.dryRun = true
                · simp only [hdr, if_true]
                  exact ih ec (delCnt + 1) del hgood (le_trans hlen (Nat.le_succ _))
                    (Nat.succ_le_of_lt (Nat.lt_of_not_le hmax))
                · simp only [hdr, if_false]
                  refine ih _ (delCnt + 1) (del ++ [dd ++ rel]) ?_ ?_
                    (Nat.succ_le_of_lt (Nat.lt_of_not_le hmax))
                  · intro p hp
                    rcases List.mem_append.mp hp with h | h
                    · exact hgood p h
                    · rcases List.mem_singleton.mp h with rfl
                      exact ⟨List.prefix_append dd rel, hmem⟩
                  · simpa using Nat.succ_le_succ hlen

/-! ## Claim C2: reconciler safety -/

/-- Safety of the sync epilogue, shared by the reconciler claims. -/
theorem sync_epilogue_deleted_spec (args : ReconArgs) (dd : FsPath)
    (remote : List FsPath) (entries : List WalkEntry)
    (failL failD : Bool) :
    (∀ p ∈ (sync_epilogue args dd remote entries failL failD).2,
        dd <+: p ∧ p ∉ remote) ∧
    (failL = true → (sync_epilogue args dd remote entries failL failD).2 = []) ∧
    (sync_epilogue args dd remote entries failL failD).2.length ≤ args.maxDelete := by
  have hs := reconLoop_spec args dd remote entries 0 0 []
    (by intro p hp; cases hp) (Nat.le_refl 0) (Nat.zero_le _)
  cases failL with
  | true =>
      refine ⟨?_, ?_, ?_⟩
      · intro p hp
        cases hp
      · intro h
        rfl
      · simp [sync_epilogue]
  | false =>
      refine ⟨?_, ?_, ?_⟩
      · intro p hp
        exact hs.1 p (by simpa [sync_epilogue] using hp)
      · intro h
        cases h
      · simpa [sync_epilogue] using hs.2

/-- C2: the reconciler deletes only paths under the mirror root that are
absent from RemoteObservedSet, deletes nothing when failure-listing is set,
and removes at most max-delete paths in one run (a candidate beyond the bound
aborts the pass with exit code 25 instead of being removed). -/
theorem C2_reconciler_safety (args : ReconArgs) (dd : FsPath)
    (remote : List FsPath) (entries : List WalkEntry)
    (failL failD : Bool) :
    (∀ p ∈ (sync_epilogue args dd remote entries failL failD).2,
        dd <+: p ∧ p ∉ remote) ∧
    (failL = true → (sync_epilogue args dd remote entries failL failD).2 = []) ∧
    (sync_epilogue args dd remote entries failL failD).2.length ≤ args.maxDelete :=
  sync_epilogue_deleted_spec args dd remote entries failL failD

/-- C2 witness: two orphans with max-delete 1 — the first is removed, the
second aborts the pass; the single removed path lies under the mirror root
and outside the observed set. -/
theorem C2_reconciler_safety_witness :
    (∀ p ∈ (sync_epilogue ⟨false, false, 1⟩ ["root".toList] []
        [.ok ["x".toList] false true, .ok ["y".toList] false true]
        false false).2,
      ["root".toList] <+: p ∧ p ∉ ([] : List FsPath)) ∧
    (false = true → (sync_epilogue ⟨false, false, 1⟩ ["root".toList] []
        [.ok ["x".toList] false true, .ok ["y".toList] false true]
        false false).2 = []) ∧
    (sync_epilogue ⟨false, false, 1⟩ ["root".toList] []
        [.ok ["x".toList] false true, .ok ["y".toList] false true]
        false false).2.length ≤ (1 : Nat) :=
  C2_reconciler_safety ⟨false, false, 1⟩ ["root".toList] []
    [.ok ["x".toList] false true, .ok ["y".toList] false true] false false

/-! ## Claim C9: a download failure forces exit code 2 -/

/-- C9: when failure-downloading is set the process exit code is 2, whatever
exit code the listing-failure branch or the reconciler produced before (1, 4
or 25): the flag is evaluated after the reconciler and the last set value
wins. -/
theorem C9_exit_code_download_failure (args : ReconArgs) (dd : FsPath)
    (remote : List FsPath) (entries : List WalkEntry) (failL : Bool) :
    (sync_epilogue args dd remote entries failL true).1 = 2 := by
  simp [sync_epilogue]

/-! ## Claim C3: Stop on the relative file path versus the observed-set insert -/

/-- C3 counterexample: with exclude "secret" (instant-stop) the relative file
path a/secret.txt gets verdict Stop and the task aborts, yet the expected
path is already in RemoteObservedSet: in the source the insert (the dedup
latch) precedes the exclusion check on relative_filepath, so a stopped file's
path IS in the observed set. -/
theorem C3_counterexample :
    (downloadTaskEntry (ExclusionManagerM.new [⟨[.lit "secret".toList]⟩] [])
        [] ["root".toList] ["a".toList] "secret.txt".toList).2 = .fileStop ∧
    ["root".toList, "a".toList, "secret.txt".toList] ∈
      (downloadTaskEntry (ExclusionManagerM.new [⟨[.lit "secret".toList]⟩] [])
        [] ["root".toList] ["a".toList] "secret.txt".toList).1 := by
  decide

/-- C3 (amended): a download task whose relative file path gets verdict Stop
aborts before the comparator and downloader run, but only after inserting
expected_path into RemoteObservedSet; consequently the stopped file's path is
in the observed set and the reconciler never deletes it. -/
theorem C3_stop_after_insert (em : ExclusionManagerM) (remoteList : List FsPath)
    (downloadDir : FsPath) (relSegs : List Seg) (name : Seg)
    (hdir : em.match_str (joinRel relSegs) ≠ .Stop)
    (hnew : (downloadDir ++ relSegs) ++ [name] ∉ remoteList)
    (hstop : em.match_str (pathJoinStr (joinRel relSegs) name) = .Stop) :
    downloadTaskEntry em remoteList downloadDir relSegs name =
      (((downloadDir ++ relSegs) ++ [name]) :: remoteList, .fileStop) ∧
    (∀ (args : ReconArgs) (entries : List WalkEntry) (failL failD : Bool),
      (downloadDir ++ relSegs) ++ [name] ∉
        (sync_epilogue args downloadDir
          ((downloadTaskEntry em remoteList downloadDir relSegs name).1)
          entries failL failD).2) := by
  have hnew2 : downloadDir ++ (relSegs ++ [name]) ∉ remoteList := by
    rwa [← List.append_assoc]
  have hentry : downloadTaskEntry em remoteList downloadDir relSegs name =
      (((downloadDir ++ relSegs) ++ [name]) :: remoteList, .fileStop) := by
    simp [downloadTaskEntry, hdir, hnew2, hstop]
  refine ⟨hentry, ?_⟩
  intro args entries failL failD hmem
  have h2 := (sync_epilogue_deleted_spec args downloadDir
    ((downloadTaskEntry em remoteList downloadDir relSegs name).1)
    entries failL failD).1 _ hmem
  rw [hentry] at h2
  exact h2.2 (List.mem_cons_self _ _)

/-- C3 witness: the amended statement at the concrete stopped download of the
counterexample. -/
theorem C3_stop_after_insert_witness :
    downloadTaskEntry (ExclusionManagerM.new [⟨[.lit "secret".toList]⟩] [])
        [] ["root".toList] ["a".toList] "secret.txt".toList =
      (((["root".toList] ++ ["a".toList]) ++ ["secret.txt".toList]) :: [],
        .fileStop) ∧
    (∀ (args : ReconArgs) (entries : List WalkEntry) (failL failD : Bool),
      (["root".toList] ++ ["a".toList]) ++ ["secret.txt".toList] ∉
        (sync_epilogue args ["root".toList]
          ((downloadTaskEntry (ExclusionManagerM.new [⟨[.lit "secret".toList]⟩] [])
            [] ["root".toList] ["a".toList] "secret.txt".toList).1)
          entries failL failD).2) :=
  C3_stop_after_insert (ExclusionManagerM.new [⟨[.lit "secret".toList]⟩] [])
    [] ["root".toList] ["a".toList] "secret.txt".toList
    (by decide) (by decide) (by decide)

/-! ## src/cli/sync.rs lines 360-391: the downloader

The body of the successful download future is embedded as a trace of
filesystem events: create the temp file, append each streamed chunk, set the
mtime through the open handle, rename temp to final.  The filesystem is a map
from paths to file data. -/

/-- Contents of a file: the chunks appended so far and the explicitly set
mtime, if any. -/
structure FileData where
  chunks : List (List Char)
  mtimeSet : Option Int
deriving DecidableEq, Repr

/-- A fragment of the filesystem. -/
def FS := FsPath → Option FileData

/-- The temp sibling name: format!(".tmp.{}", item.name). -/
def tmpName (name : Seg) : Seg := ".tmp.".toList ++ name

/-- One filesystem step of the download future. -/
inductive DlEvent
  | createTmp
  | writeChunk (c : List Char)
  | setMtime (m : Int)
  | renameTmpFinal
deriving DecidableEq, Repr

/-- Effect of one event on the filesystem: File::create truncates the temp
path, write_all appends to it, set_file_handle_times sets its mtime,
fs::rename moves it onto the final path. -/
def applyEvent (cwd : FsPath) (name : Seg) (fs : FS) : DlEvent → FS
  | .createTmp => fun p =>
      if p = cwd ++ [tmpName name] then some ⟨[], none⟩ else fs p
  | .writeChunk c => fun p =>
      if p = cwd ++ [tmpName name] then
        match fs (cwd ++ [tmpName name]) with
        | some fd => some ⟨fd.chunks ++ [c], fd.mtimeSet⟩
        | none => none
      else fs p
  | .setMtime m => fun p =>
      if p = cwd ++ [tmpName name] then
        match fs (cwd ++ [tmpName name]) with
        | some fd => some ⟨fd.chunks, some m⟩
        | none => none
      else fs p
  | .renameTmpFinal => fun p =>
      if p = cwd ++ [name] then fs (cwd ++ [tmpName name])
      else if p = cwd ++ [tmpName name] then none
      else fs p

/-- Run a list of events over a filesystem. -/
def runEvents (cwd : FsPath) (name : Seg) (fs : FS) (evs : List DlEvent) : FS :=
  evs.foldl (applyEvent cwd name) fs

/-- The event trace of one successful download. -/
def downloadTrace (body : List (List Char)) (m : Int) : List DlEvent :=
  [.createTmp] ++ body.map DlEvent.writeChunk ++ [.setMtime m, .renameTmpFinal]

theorem tmpName_ne (name : Seg) : tmpName name ≠ name := by
  intro h
  have hlen := congrArg List.length h
  simp [tmpName] at hlen
  omega

theorem tmpPath_ne_finalPath (cwd : FsPath) (name : Seg) :
    cwd ++ [tmpName name] ≠ cwd ++ [name] := by
  intro h
  exact tmpName_ne name (by simpa using List.append_cancel_left h)

theorem applyEvent_preserves (cwd : FsPath) (name : Seg) (fs : FS) (e : DlEvent)
    (q : FsPath) (he : e ≠ .renameTmpFinal) (hq : q ≠ cwd ++ [tmpName name]) :
    applyEvent cwd name fs e q = fs q := by
  cases e with
  | createTmp => simp [applyEvent, hq]
  | writeChunk c => simp [applyEvent, hq]
  | setMtime m => simp [applyEvent, hq]
  | renameTmpFinal => exact absurd rfl he

theorem runEvents_preserves (cwd : FsPath) (name : Seg) :
    ∀ (evs : List DlEvent) (fs : FS) (q : FsPath),
      DlEvent.renameTmpFinal ∉ evs → q ≠ cwd ++ [tmpName name] →
      runEvents cwd name fs evs q = fs q := by
  intro evs
  induction evs with
  | nil =>
      intro fs q _ _
      rfl
  | cons e rest ih =>
      intro fs q hmem hq
      have hstep : runEvents cwd name fs (e :: rest) q =
          runEvents cwd name (applyEvent cwd name fs e) rest q := rfl
      rw [hstep, ih _ q (fun h => hmem (List.mem_cons_of_mem _ h)) hq,
        applyEvent_preserves cwd name fs e q
          (fun h => hmem (h ▸ List.mem_cons_self _ _)) hq]

theorem applyEvent_preserves_other (cwd : FsPath) (name : Seg) (fs : FS)
    (e : DlEvent) (q : FsPath) (hq : q ≠ cwd ++ [tmpName name])
    (hq2 : q ≠ cwd ++ [name]) :
    applyEvent cwd name fs e q = fs q := by
  cases e with
  | createTmp => simp [applyEvent, hq]
  | writeChunk c => simp [applyEvent, hq]
  | setMtime m => simp [applyEvent, hq]
  | renameTmpFinal => simp [applyEvent, hq, hq2]

theorem runEvents_preserves_other (cwd : FsPath) (name : Seg) :
    ∀ (evs : List DlEvent) (fs : FS) (q : FsPath),
      q ≠ cwd ++ [tmpName name] → q ≠ cwd ++ [name] →
      runEvents cwd name fs evs q = fs q := by
  intro evs
  induction evs with
  | nil =>
      intro fs q _ _
      rfl
  | cons e rest ih =>
      intro fs q hq hq2
      have hstep : runEvents cwd name fs (e :: rest) q =
          runEvents cwd name (applyEvent cwd name fs e) rest q := rfl
      rw [hstep, ih _ q hq hq2, applyEvent_preserves_other cwd name fs e q hq hq2]

theorem runEvents_writes (cwd : FsPath) (name : Seg) :
    ∀ (body : List (List Char)) (fs : FS) (cs : List (List Char)) (mt : Option Int),
      fs (cwd ++ [tmpName name]) = some ⟨cs, mt⟩ →
      runEvents cwd name fs (body.map DlEvent.writeChunk) (cwd ++ [tmpName name]) =
        some ⟨cs ++ body, mt⟩ := by
  intro body
  induction body with
  | nil =>
      intro fs cs mt h
      simpa using h
  | cons c rest ih =>
      intro fs cs mt h
      have hstep : runEvents cwd name fs ((c :: rest).map DlEvent.writeChunk)
          (cwd ++ [tmpName name]) =
          runEvents cwd name (applyEvent cwd name fs (.writeChunk c))
            (rest.map DlEvent.writeChunk) (cwd ++ [tmpName name]) := rfl
      rw [hstep, ih _ (cs ++ [c]) mt (by simp [applyEvent, h])]
      simp

theorem rename_not_in_front_part (body : List (List Char)) (m : Int)
    (p : List DlEvent) (hp : p <+: downloadTrace body m)
    (hne : p ≠ downloadTrace body m) : DlEvent.renameTmpFinal ∉ p := by
  have hfront : downloadTrace body m =
      ([DlEvent.createTmp] ++ body.map DlEvent.writeChunk ++ [DlEvent.setMtime m]) ++
        [DlEvent.renameTmpFinal] := by
    simp [downloadTrace]
  have h1 : p <+:
      ([DlEvent.createTmp] ++ body.map DlEvent.writeChunk ++ [DlEvent.setMtime m]) ++
        [DlEvent.renameTmpFinal] := hfront ▸ hp
  have hlen : p.length ≤
      ([DlEvent.createTmp] ++ body.map DlEvent.writeChunk ++ [DlEvent.setMtime m]).length := by
    rcases hp with ⟨t, ht⟩
    cases t with
    | nil =>
        exact absurd (by simpa using ht) hne
    | cons a t2 =>
        have hl := congrArg List.length ht
        simp [downloadTrace] at hl
        simp
        omega
  have hpf := List.prefix_of_prefix_length_le h1 (List.prefix_append _ _) hlen
  intro hmem
  have hsub := hpf.subset hmem
  simp at hsub

/-! ## Claim C1: atomicity of the downloader -/

/-- C1: during a successful download every proper prefix of the event trace
leaves every path other than the temp sibling .tmp.name untouched (in
particular the final path never holds partial content); the full trace leaves
the final path holding the whole body with the chosen mtime (set before the
rename, which is the last event), removes the temp path, and touches no other
path. -/
theorem C1_atomic_download (cwd : FsPath) (name : Seg) (fs0 : FS)
    (body : List (List Char)) (m : Int) :
    (∀ p, p <+: downloadTrace body m → p ≠ downloadTrace body m →
        ∀ q, q ≠ cwd ++ [tmpName name] →
          runEvents cwd name fs0 p q = fs0 q) ∧
    runEvents cwd name fs0 (downloadTrace body m) (cwd ++ [name]) =
      some ⟨body, some m⟩ ∧
    runEvents cwd name fs0 (downloadTrace body m) (cwd ++ [tmpName name]) =
      none ∧
    (∀ q, q ≠ cwd ++ [tmpName name] → q ≠ cwd ++ [name] →
        runEvents cwd name fs0 (downloadTrace body m) q = fs0 q) := by
  have htne := tmpPath_ne_finalPath cwd name
  have hfs2 : runEvents cwd name fs0 (DlEvent.createTmp :: body.map DlEvent.writeChunk)
      (cwd ++ [tmpName name]) = some ⟨body, none⟩ := by
    have hstep : runEvents cwd name fs0 (DlEvent.createTmp :: body.map DlEvent.writeChunk) =
        runEvents cwd name (applyEvent cwd name fs0 .createTmp)
          (body.map DlEvent.writeChunk) := rfl
    rw [hstep, runEvents_writes cwd name body _ [] none (by simp [applyEvent])]
    simp
  have hdecomp : ∀ q, runEvents cwd name fs0 (downloadTrace body m) q =
      applyEvent cwd name
        (applyEvent cwd name
          (runEvents cwd name fs0 (DlEvent.createTmp :: body.map DlEvent.writeChunk))
          (.setMtime m))
        .renameTmpFinal q := by
    intro q
    rw [show downloadTrace body m =
        ([DlEvent.createTmp] ++ body.map DlEvent.writeChunk) ++
          [DlEvent.setMtime m, DlEvent.renameTmpFinal] by simp [downloadTrace]]
    rw [runEvents, List.foldl_append]
    rfl
  refine ⟨?_, ?_, ?_, ?_⟩
  · intro p hp hne q hq
    exact runEvents_preserves cwd name p fs0 q
      (rename_not_in_front_part body m p hp hne) hq
  · rw [hdecomp]
    simp [applyEvent, hfs2]
  · rw [hdecomp]
    simp [applyEvent, htne]
  · intro q hq hq2
    exact runEvents_preserves_other cwd name _ fs0 q hq hq2

/-- C1 witness: the full-trace conclusion at a concrete download of one
chunk onto an empty filesystem. -/
theorem C1_atomic_download_witness :
    runEvents ["r".toList] "f".toList (fun _ => none)
      (downloadTrace ["ab".toList] 5) (["r".toList] ++ ["f".toList]) =
      some ⟨["ab".toList], some 5⟩ :=
  (C1_atomic_download ["r".toList] "f".toList (fun _ => none)
    ["ab".toList] 5).2.1

/-! ## src/list.rs FileSize::get_humanized and the dialect size branches -/

/-- Validity of the numeric part for f64 parsing, restricted to the shapes
reaching it here (only digits and dots by construction): at least one digit
and at most one dot. -/
def floatLitOk (cs : List Char) : Bool :=
  cs.any (fun c => c.isDigit) && decide (cs.count '.' ≤ 1) &&
    cs.all (fun c => c.isDigit || c = '.')

/-- Numeric value of a digit string. -/
def natOfDigits (cs : List Char) : Nat :=
  cs.foldl (fun acc c => 10 * acc + (c.toNat - '0'.toNat)) 0

/-- Exact rational value of a digits-and-dot literal (the f64 value of the
token, with rounding out of scope); none models a parse panic. -/
def parseDecimalQ (cs : List Char) : Option ℚ :=
  if floatLitOk cs then
    let intPart := cs.takeWhile (fun c => c != '.')
    match cs.dropWhile (fun c => c != '.') with
    | [] => some ((natOfDigits intPart : ℚ))
    | _ :: fr =>
        some ((natOfDigits intPart : ℚ) + (natOfDigits fr : ℚ) / (10 : ℚ) ^ fr.length)
  else none

/-- str::trim on a character list (whitespace at both ends). -/
def trimSpaces (cs : List Char) : List Char :=
  ((cs.dropWhile Char.isWhitespace).reverse.dropWhile Char.isWhitespace).reverse

/-- The unit match of FileSize::get_humanized, applied to the lowercased and
trimmed non-numeric characters; none models the "Unknown unit" panic. -/
def unitLookup (unit : List Char) : Option SizeUnitM :=
  if unit = [] then some .B
  else if unit = ['b'] then some .B
  else if unit = ['k'] then some .K
  else if unit = ['m'] then some .M
  else if unit = ['g'] then some .G
  else if unit = ['t'] then some .T
  else if unit = ['p'] then some .P
  else none

/-- FileSize::get_humanized from src/list.rs: digits and dots form the
number, the remaining characters (lowercased, trimmed) the unit. -/
def get_humanized (s : List Char) : Option (ℚ × SizeUnitM) :=
  let numeric := s.filter (fun c => c.isDigit || c = '.')
  let unitStr :=
    trimSpaces ((s.filter (fun c => !(c.isDigit || c = '.'))).map Char.toLower)
  match parseDecimalQ numeric, unitLookup unitStr with
  | some q, some u => some (q, u)
  | _, _ => none

/-- Character class of the size capture group of NginxListingParser's
metadata regex, [\d\.\-kMG]. -/
def nginxSizeClass (c : Char) : Bool :=
  c.isDigit || c = '.' || c = '-' || c = 'k' || c = 'M' || c = 'G'

/-- What the nginx dialect makes of the size token of one row. -/
inductive NginxSizeResult
  | fail
  | noSize
  | size (fs : FileSizeM)
deriving DecidableEq, Repr

/-- u64 string parsing; none models the unwrap panic. -/
def parseU64 (s : List Char) : Option Nat :=
  if !s.isEmpty && s.all (fun c => c.isDigit) then some (natOfDigits s) else none

/-- Size handling of NginxListingParser (src/parser/nginx.rs lines 19-26 and
82-91): the metadata regex captures the token only if all its characters lie
in [\d\.\-kMG]; "-" means no size; a token containing 'k', 'M' or 'G' goes
through get_humanized as a binary size; anything else must parse as u64.
fail models the capture/unwrap panics that abort the listing. -/
def nginx_size_token (s : List Char) : NginxSizeResult :=
  if s.isEmpty || !(s.all nginxSizeClass) then .fail
  else if s = ['-'] then .noSize
  else if s.contains 'k' || s.contains 'M' || s.contains 'G' then
    match get_humanized s with
    | some (q, u) => .size (.humanizedBinary q u)
    | none => .fail
  else
    match parseU64 s with
    | some n => .size (.precise n)
    | none => .fail

/-- Size handling of ApacheF2ListingParser (src/parser/apache_f2.rs lines
70-78): "-" means unknown/directory, everything else goes straight through
get_humanized as a binary size; none models the panic. -/
def apache_f2_size_token (s : List Char) : Option (Option FileSizeM) :=
  if s = ['-'] then some none
  else
    match get_humanized s with
    | some (q, u) => some (some (.humanizedBinary q u))
    | none => none

/-! ## Helper lemmas about digit strings -/

theorem takeWhile_all_true {α} (p : α → Bool) :
    ∀ l : List α, (∀ a ∈ l, p a = true) → l.takeWhile p = l := by
  intro l
  induction l with
  | nil => intro _; rfl
  | cons a t ih =>
      intro h
      simp [List.takeWhile_cons, h a (List.mem_cons_self _ _),
        ih fun c hc => h c (List.mem_cons_of_mem _ hc)]

theorem dropWhile_all_true {α} (p : α → Bool) :
    ∀ l : List α, (∀ a ∈ l, p a = true) → l.dropWhile p = [] := by
  intro l
  induction l with
  | nil => intro _; rfl
  | cons a t ih =>
      intro h
      simp [List.dropWhile_cons, h a (List.mem_cons_self _ _),
        ih fun c hc => h c (List.mem_cons_of_mem _ hc)]

theorem digits_not_mem (ds : List Char) (hdig : ∀ c ∈ ds, c.isDigit = true)
    (x : Char) (hx : x.isDigit = false) : x ∉ ds := by
  intro hmem
  simp [hdig x hmem] at hx

theorem digits_filter_num (ds : List Char) (hdig : ∀ c ∈ ds, c.isDigit = true) :
    ds.filter (fun c => c.isDigit || c = '.') = ds := by
  apply List.filter_eq_self.mpr
  intro a ha
  simp [hdig a ha]

theorem digits_filter_unit (ds : List Char) (hdig : ∀ c ∈ ds, c.isDigit = true) :
    ds.filter (fun c => !(c.isDigit || c = '.')) = [] := by
  rw [List.filter_eq_nil_iff]
  intro a ha
  simp [hdig a ha]

theorem parseDecimalQ_digits (ds : List Char) (hne : ds ≠ [])
    (hdig : ∀ c ∈ ds, c.isDigit = true) :
    parseDecimalQ ds = some ((natOfDigits ds : ℚ)) := by
  have hany : ds.any (fun c => c.isDigit) = true := by
    cases ds with
    | nil => exact absurd rfl hne
    | cons a t => simp [hdig a (List.mem_cons_self _ _)]
  have hcnt : ds.count '.' = 0 :=
    List.count_eq_zero.mpr (digits_not_mem ds hdig '.' (by decide))
  have hall : ds.all (fun c => c.isDigit || c = '.') = true := by
    rw [List.all_eq_true]
    intro c hc
    simp [hdig c hc]
  have hfl : floatLitOk ds = true := by
    simp [floatLitOk, hany, hcnt, hall]
  have hnotdot : ∀ c ∈ ds, (c != '.') = true := by
    intro c hc
    simp [bne_iff_ne]
    intro h
    rw [h] at hc
    exact digits_not_mem ds hdig '.' (by decide) hc
  rw [parseDecimalQ]
  rw [if_pos hfl, takeWhile_all_true _ ds hnotdot, dropWhile_all_true _ ds hnotdot]

theorem get_humanized_digits_unit (ds : List Char) (u : Char) (hne : ds ≠ [])
    (hdig : ∀ c ∈ ds, c.isDigit = true) (hu : u.isDigit = false) (hu2 : u ≠ '.') :
    get_humanized (ds ++ [u]) =
      match unitLookup (trimSpaces [u.toLower]) with
      | some un => some ((natOfDigits ds : ℚ), un)
      | none => none := by
  unfold get_humanized
  have h1 : (ds ++ [u]).filter (fun c => c.isDigit || c = '.') = ds := by
    rw [List.filter_append, digits_filter_num ds hdig]
    simp [hu, hu2]
  have h2 : (ds ++ [u]).filter (fun c => !(c.isDigit || c = '.')) = [u] := by
    rw [List.filter_append, digits_filter_unit ds hdig]
    simp [hu, hu2]
  rw [h1, h2]
  show (match parseDecimalQ ds,
      unitLookup (trimSpaces (List.map Char.toLower [u])) with
    | some q, some un => some (q, un)
    | _, _ => none) =
    match unitLookup (trimSpaces [u.toLower]) with
    | some un => some ((natOfDigits ds : ℚ), un)
    | none => none
  rw [parseDecimalQ_digits ds hne hdig]
  simp only [List.map_cons, List.map_nil]
  cases h : unitLookup (trimSpaces [u.toLower]) <;> simp [h]

theorem digits_all_class (ds : List Char) (hdig : ∀ c ∈ ds, c.isDigit = true) :
    ds.all nginxSizeClass = true := by
  rw [List.all_eq_true]
  intro c hc
  simp [nginxSizeClass, hdig c hc]

theorem append_single_ne_dash (ds : List Char) (c : Char) (hne : ds ≠ []) :
    ds ++ [c] ≠ ['-'] := by
  intro h
  have hl := congrArg List.length h
  simp at hl
  exact hne hl

theorem nginx_fail_of_bad_class (ds : List Char) (c : Char)
    (hc : nginxSizeClass c = false) :
    nginx_size_token (ds ++ [c]) = .fail := by
  have hall : (ds ++ [c]).all nginxSizeClass = false := by
    rw [List.all_append]
    simp [hc]
  simp [nginx_size_token, hall]

/-! ## Claim C8: size-unit letters across dialects -/

/-- C8 counterexample: the nginx/Apache-F1 dialect does not accept the unit
letter K (uppercase): its metadata regex class [\d\.\-kMG] rejects the token
100K, so the row fails instead of producing HumanizedBinary(100, K). -/
theorem C8_counterexample :
    nginx_size_token "100K".toList = .fail ∧
    nginx_size_token "100K".toList ≠
      .size (.humanizedBinary ((natOfDigits "100".toList : ℚ)) .K) := by
  constructor
  · decide
  · intro h
    rw [show nginx_size_token "100K".toList = .fail by decide] at h
    cases h

/-- C8 (amended): FileSize::get_humanized itself maps every unit letter of
k/K, m/M, g/G, t/T, p/P case-insensitively to the corresponding binary-base
unit, and dialects calling it directly on the raw token (such as Apache F2)
accept all these letters in either case; but the basic nginx/Apache-F1
dialect treats a token as humanized only when it contains 'k', 'M' or 'G'
exactly, and its metadata regex rejects any token containing one of the other
seven letters (K, m, g, t, T, p, P), failing the row. -/
theorem C8_unit_letters (ds : List Char) (hne : ds ≠ [])
    (hdig : ∀ c ∈ ds, c.isDigit = true) :
    (get_humanized (ds ++ ['k']) = some ((natOfDigits ds : ℚ), .K) ∧
     get_humanized (ds ++ ['K']) = some ((natOfDigits ds : ℚ), .K) ∧
     get_humanized (ds ++ ['m']) = some ((natOfDigits ds : ℚ), .M) ∧
     get_humanized (ds ++ ['M']) = some ((natOfDigits ds : ℚ), .M) ∧
     get_humanized (ds ++ ['g']) = some ((natOfDigits ds : ℚ), .G) ∧
     get_humanized (ds ++ ['G']) = some ((natOfDigits ds : ℚ), .G) ∧
     get_humanized (ds ++ ['t']) = some ((natOfDigits ds : ℚ), .T) ∧
     get_humanized (ds ++ ['T']) = some ((natOfDigits ds : ℚ), .T) ∧
     get_humanized (ds ++ ['p']) = some ((natOfDigits ds : ℚ), .P) ∧
     get_humanized (ds ++ ['P']) = some ((natOfDigits ds : ℚ), .P)) ∧
    (apache_f2_size_token (ds ++ ['K']) =
        some (some (.humanizedBinary ((natOfDigits ds : ℚ)) .K)) ∧
     apache_f2_size_token (ds ++ ['t']) =
        some (some (.humanizedBinary ((natOfDigits ds : ℚ)) .T))) ∧
    (nginx_size_token (ds ++ ['k']) =
        .size (.humanizedBinary ((natOfDigits ds : ℚ)) .K) ∧
     nginx_size_token (ds ++ ['M']) =
        .size (.humanizedBinary ((natOfDigits ds : ℚ)) .M) ∧
     nginx_size_token (ds ++ ['G']) =
        .size (.humanizedBinary ((natOfDigits ds : ℚ)) .G)) ∧
    (nginx_size_token (ds ++ ['K']) = .fail ∧
     nginx_size_token (ds ++ ['m']) = .fail ∧
     nginx_size_token (ds ++ ['g']) = .fail ∧
     nginx_size_token (ds ++ ['t']) = .fail ∧
     nginx_size_token (ds ++ ['T']) = .fail ∧
     nginx_size_token (ds ++ ['p']) = .fail ∧
     nginx_size_token (ds ++ ['P']) = .fail) := by
  have ghk := get_humanized_digits_unit ds 'k' hne hdig (by decide) (by decide)
  have ghK := get_humanized_digits_unit ds 'K' hne hdig (by decide) (by decide)
  have ghm := get_humanized_digits_unit ds 'm' hne hdig (by decide) (by decide)
  have ghM := get_humanized_digits_unit ds 'M' hne hdig (by decide) (by decide)
  have ghg := get_humanized_digits_unit ds 'g' hne hdig (by decide) (by decide)
  have ghG := get_humanized_digits_unit ds 'G' hne hdig (by decide) (by decide)
  have ght := get_humanized_digits_unit ds 't' hne hdig (by decide) (by decide)
  have ghT := get_humanized_digits_unit ds 'T' hne hdig (by decide) (by decide)
  have ghp := get_humanized_digits_unit ds 'p' hne hdig (by decide) (by decide)
  have ghP := get_humanized_digits_unit ds 'P' hne hdig (by decide) (by decide)
  refine ⟨⟨ghk.trans rfl, ghK.trans rfl, ghm.trans rfl, ghM.trans rfl,
    ghg.trans rfl, ghG.trans rfl, ght.trans rfl, ghT.trans rfl,
    ghp.trans rfl, ghP.trans rfl⟩, ⟨?_, ?_⟩, ⟨?_, ?_, ?_⟩,
    nginx_fail_of_bad_class ds 'K' (by decide),
    nginx_fail_of_bad_class ds 'm' (by decide),
    nginx_fail_of_bad_class ds 'g' (by decide),
    nginx_fail_of_bad_class ds 't' (by decide),
    nginx_fail_of_bad_class ds 'T' (by decide),
    nginx_fail_of_bad_class ds 'p' (by decide),
    nginx_fail_of_bad_class ds 'P' (by decide)⟩
  · have ghK2 : get_humanized (ds ++ ['K']) =
        some ((natOfDigits ds : ℚ), SizeUnitM.K) := ghK.trans (by rfl)
    simp [apache_f2_size_token, append_single_ne_dash ds 'K' hne, ghK2]
  · have ght2 : get_humanized (ds ++ ['t']) =
        some ((natOfDigits ds : ℚ), SizeUnitM.T) := ght.trans (by rfl)
    simp [apache_f2_size_token, append_single_ne_dash ds 't' hne, ght2]
  · have ghk2 : get_humanized (ds ++ ['k']) =
        some ((natOfDigits ds : ℚ), SizeUnitM.K) := ghk.trans (by rfl)
    have hall : (ds ++ ['k']).all nginxSizeClass = true := by
      rw [List.all_append, digits_all_class ds hdig]
      decide
    have hcont : 'k' ∈ ds ++ ['k'] := by simp
    simp [nginx_size_token, hall, append_single_ne_dash ds 'k' hne, hcont, ghk2]
  · have ghM2 : get_humanized (ds ++ ['M']) =
        some ((natOfDigits ds : ℚ), SizeUnitM.M) := ghM.trans (by rfl)
    have hall : (ds ++ ['M']).all nginxSizeClass = true := by
      rw [List.all_append, digits_all_class ds hdig]
      decide
    have hcont : 'M' ∈ ds ++ ['M'] := by simp
    simp [nginx_size_token, hall, append_single_ne_dash ds 'M' hne, hcont, ghM2]
  · have ghG2 : get_humanized (ds ++ ['G']) =
        some ((natOfDigits ds : ℚ), SizeUnitM.G) := ghG.trans (by rfl)
    have hall : (ds ++ ['G']).all nginxSizeClass = true := by
      rw [List.all_append, digits_all_class ds hdig]
      decide
    have hcont : 'G' ∈ ds ++ ['G'] := by simp
    simp [nginx_size_token, hall, append_single_ne_dash ds 'G' hne, hcont, ghG2]

/-- C8 witness: the amended statement at the one-digit token 3 followed by
each unit letter. -/
theorem C8_unit_letters_witness :
    get_humanized (['3'] ++ ['K']) = some ((natOfDigits ['3'] : ℚ), .K) ∧
    nginx_size_token (['3'] ++ ['k']) =
      .size (.humanizedBinary ((natOfDigits ['3'] : ℚ)) .K) ∧
    nginx_size_token (['3'] ++ ['K']) = .fail :=
  ⟨(C8_unit_letters ['3'] (by decide) (by decide)).1.2.1,
   (C8_unit_letters ['3'] (by decide) (by decide)).2.2.1.1,
   (C8_unit_letters ['3'] (by decide) (by decide)).2.2.2.1⟩

/-! ## src/cli/sync.rs lines 178-455: the worker pool

The work-stealing loop and the quiescence protocol are embedded as an
interleaving transition system.  A task is a tree: processing a node pushes
its children (the listing or extension results) onto the worker's own deque
and increments the wake counter per push, exactly as the source does.  The
pop chain (own deque, then a batch from the injector, then the stealers) and
the subsequent fetch_sub of the active counter are taken as one atomic probe;
consuming a wake token together with re-incrementing active likewise.  The
sleep of a worker whose wake probe fails is the spin self-loop. -/

/-- A task together with the tasks its processing will push. -/
inductive TaskT
  | node (children : List TaskT)

/-- Where a worker stands in the loop of src/cli/sync.rs lines 178-457. -/
inductive WPhase
  | start
  | working
  | sleeping
  | done
deriving DecidableEq, Repr

/-- Shared state of the pool: the injector, each worker's deque, each
worker's phase, and the two SeqCst counters. -/
structure PoolState where
  global : List TaskT
  deques : List (List TaskT)
  phases : List WPhase
  active : Nat
  wake : Nat

/-- One transition of the pool (worker i acts). -/
inductive Step : PoolState → PoolState → Prop
  | start (s : PoolState) (i : Nat)
      (hph : s.phases.get? i = some .start) :
      Step s { s with
                 phases := s.phases.set i .working
                 active := s.active + 1 }
  | popOwn (s : PoolState) (i : Nat) (cs rest : List TaskT)
      (hph : s.phases.get? i = some .working)
      (hdq : s.deques.get? i = some (TaskT.node cs :: rest)) :
      Step s { s with
                 deques := s.deques.set i (rest ++ cs)
                 wake := s.wake + cs.length }
  | popGlobal (s : PoolState) (i : Nat) (cs batchRest g2 : List TaskT)
      (hph : s.phases.get? i = some .working)
      (hdq : s.deques.get? i = some [])
      (hg : s.global = (TaskT.node cs :: batchRest) ++ g2) :
      Step s { s with
                 global := g2
                 deques := s.deques.set i (batchRest ++ cs)
                 wake := s.wake + cs.length }
  | steal (s : PoolState) (i j : Nat) (cs rest : List TaskT)
      (hph : s.phases.get? i = some .working)
      (hdq : s.deques.get? i = some [])
      (hg : s.global = [])
      (hdj : s.deques.get? j = some (TaskT.node cs :: rest)) :
      Step s { s with
                 deques := (s.deques.set j rest).set i cs
                 wake := s.wake + cs.length }
  | exitLast (s : PoolState) (i : Nat)
      (hph : s.phases.get? i = some .working)
      (hg : s.global = [])
      (hdq : ∀ d ∈ s.deques, d = [])
      (hact : s.active = 1) :
      Step s { s with
                 phases := s.phases.set i .done
                 active := 0 }
  | sleepMore (s : PoolState) (i : Nat)
      (hph : s.phases.get? i = some .working)
      (hg : s.global = [])
      (hdq : ∀ d ∈ s.deques, d = [])
      (hact : 2 ≤ s.active) :
      Step s { s with
                 phases := s.phases.set i .sleeping
                 active := s.active - 1 }
  | wakeUp (s : PoolState) (i : Nat)
      (hph : s.phases.get? i = some .sleeping)
      (hw : 1 ≤ s.wake) :
      Step s { s with
                 phases := s.phases.set i .working
                 active := s.active + 1
                 wake := s.wake - 1 }
  | spin (s : PoolState) (i : Nat)
      (hph : s.phases.get? i = some .sleeping)
      (hw : s.wake = 0) :
      Step s s

/-- Reflexive-transitive closure of pool transitions. -/
def Reachable : PoolState → PoolState → Prop := Relation.ReflTransGen Step

/-- The pool has exited: every worker thread has terminated. -/
def allDone (s : PoolState) : Prop := ∀ p ∈ s.phases, p = WPhase.done

/-- The injector, every deque (hence every stealer) is empty. -/
def queuesEmpty (s : PoolState) : Prop :=
  s.global = [] ∧ ∀ d ∈ s.deques, d = []

/-- Initial pool: the root listing task in the injector, n workers about to
enter their loops. -/
def initState (n : Nat) (root : TaskT) : PoolState :=
  ⟨[root], List.replicate n [], List.replicate n .start, 0, 0⟩

theorem mem_set_self {α} :
    ∀ (l : List α) (i : Nat) (v w : α), l.get? i = some w → v ∈ l.set i v := by
  intro l
  induction l with
  | nil =>
      intro i v w h
      cases h
  | cons a t ih =>
      intro i v w h
      cases i with
      | zero => exact List.mem_cons_self _ _
      | succ n => exact List.mem_cons_of_mem _ (ih n v w h)

theorem get?_pair {α} (a b : α) (i : Nat) (c : α)
    (h : [a, b].get? i = some c) : (i = 0 ∧ c = a) ∨ (i = 1 ∧ c = b) := by
  match i with
  | 0 => exact Or.inl ⟨rfl, (Option.some.inj h).symm⟩
  | 1 => exact Or.inr ⟨rfl, (Option.some.inj h).symm⟩
  | n + 2 => cases h

/-! ## Claim C4: quiescence of the worker pool -/

/-- C4 (amended): when the pool exits — every worker terminated — the
injector, every local deque and every stealer are empty (the last active
worker only exits after a pop probe that saw everything drained, and no other
worker can push afterwards).  The converse direction of the claimed "iff"
fails, see the counterexample. -/
theorem C4_exit_implies_drained (n : Nat) (root : TaskT) (s : PoolState)
    (hn : 1 ≤ n) (hr : Reachable (initState n root) s) (hd : allDone s) :
    queuesEmpty s := by
  revert hd
  induction hr with
  | refl =>
      intro hd
      exfalso
      cases n with
      | zero => omega
      | succ k =>
          have hmem : WPhase.start ∈ (initState (k + 1) root).phases := by
            simp [initState]
          exact WPhase.noConfusion (hd _ hmem)
  | tail hab hbc ih =>
      intro hd
      cases hbc with
      | start i hph =>
          exact absurd (hd _ (mem_set_self _ i _ _ hph)) (by intro h; cases h)
      | popOwn i cs rest hph hdq =>
          exact absurd (hd _ (List.get?_mem hph)) (by intro h; cases h)
      | popGlobal i cs br g2 hph hdq hg =>
          exact absurd (hd _ (List.get?_mem hph)) (by intro h; cases h)
      | steal i j cs rest hph hdq hg hdj =>
          exact absurd (hd _ (List.get?_mem hph)) (by intro h; cases h)
      | exitLast i hph hg hdq hact =>
          exact ⟨hg, hdq⟩
      | sleepMore i hph hg hdq hact =>
          exact absurd (hd _ (mem_set_self _ i _ _ hph)) (by intro h; cases h)
      | wakeUp i hph hw =>
          exact absurd (hd _ (mem_set_self _ i _ _ hph)) (by intro h; cases h)
      | spin i hph hw =>
          exact absurd (hd _ (List.get?_mem hph)) (by intro h; cases h)

/-- C4 witness: a single worker consumes the root task (which yields no
children) and exits; the theorem instantiated on the resulting run. -/
theorem C4_exit_implies_drained_witness :
    queuesEmpty ⟨[], [[]], [WPhase.done], 0, 0⟩ := by
  have step1 : Step (initState 1 (TaskT.node []))
      ⟨[TaskT.node []], [[]], [WPhase.working], 1, 0⟩ :=
    Step.start (initState 1 (TaskT.node [])) 0 rfl
  have step2 : Step ⟨[TaskT.node []], [[]], [WPhase.working], 1, 0⟩
      ⟨[], [[]], [WPhase.working], 1, 0⟩ :=
    Step.popGlobal _ 0 [] [] [] rfl rfl rfl
  have step3 : Step ⟨[], [[]], [WPhase.working], 1, 0⟩
      ⟨[], [[]], [WPhase.done], 0, 0⟩ :=
    Step.exitLast _ 0 rfl rfl
      (by intro d hd; simp at hd; exact hd) rfl
  have hr : Reachable (initState 1 (TaskT.node []))
      ⟨[], [[]], [WPhase.done], 0, 0⟩ :=
    Relation.ReflTransGen.tail
      (Relation.ReflTransGen.tail
        (Relation.ReflTransGen.tail Relation.ReflTransGen.refl step1)
        step2)
      step3
  exact C4_exit_implies_drained 1 (TaskT.node []) _ (by omega) hr
    (by intro p hp; simp at hp; exact hp)

/-- C4 counterexample: with two workers and a root task yielding nothing,
worker 0 takes the root task while worker 1 probes empty and goes to sleep
(active was 2); worker 0 then probes empty with active 1 and exits.  The
resulting state has every queue empty and more than one worker, yet worker 1
sleeps forever on a zero wake counter: its only enabled transition is the
spin self-loop, so no reachable state has the pool exited.  This refutes both
the "exits if drained" direction of the claimed iff and the absence of
deadlock for workers > 1. -/
theorem C4_counterexample :
    Reachable (initState 2 (TaskT.node []))
      ⟨[], [[], []], [WPhase.done, WPhase.sleeping], 0, 0⟩ ∧
    queuesEmpty ⟨[], [[], []], [WPhase.done, WPhase.sleeping], 0, 0⟩ ∧
    ¬ allDone ⟨[], [[], []], [WPhase.done, WPhase.sleeping], 0, 0⟩ ∧
    (∀ s, Step ⟨[], [[], []], [WPhase.done, WPhase.sleeping], 0, 0⟩ s →
        s = ⟨[], [[], []], [WPhase.done, WPhase.sleeping], 0, 0⟩) ∧
    (∀ s, Reachable ⟨[], [[], []], [WPhase.done, WPhase.sleeping], 0, 0⟩ s →
        ¬ allDone s) := by
  have step1 : Step (initState 2 (TaskT.node []))
      ⟨[TaskT.node []], [[], []], [WPhase.working, WPhase.start], 1, 0⟩ :=
    Step.start (initState 2 (TaskT.node [])) 0 rfl
  have step2 : Step ⟨[TaskT.node []], [[], []], [WPhase.working, WPhase.start], 1, 0⟩
      ⟨[TaskT.node []], [[], []], [WPhase.working, WPhase.working], 2, 0⟩ :=
    Step.start _ 1 rfl
  have step3 : Step ⟨[TaskT.node []], [[], []], [WPhase.working, WPhase.working], 2, 0⟩
      ⟨[], [[], []], [WPhase.working, WPhase.working], 2, 0⟩ :=
    Step.popGlobal _ 0 [] [] [] rfl rfl rfl
  have step4 : Step ⟨[], [[], []], [WPhase.working, WPhase.working], 2, 0⟩
      ⟨[], [[], []], [WPhase.working, WPhase.sleeping], 1, 0⟩ :=
    Step.sleepMore _ 1 rfl rfl
      (by intro d hd; simp at hd; exact hd)
      (Nat.le_refl 2)
  have step5 : Step ⟨[], [[], []], [WPhase.working, WPhase.sleeping], 1, 0⟩
      ⟨[], [[], []], [WPhase.done, WPhase.sleeping], 0, 0⟩ :=
    Step.exitLast _ 0 rfl rfl
      (by intro d hd; simp at hd; exact hd)
      rfl
  have hreach : Reachable (initState 2 (TaskT.node []))
      ⟨[], [[], []], [WPhase.done, WPhase.sleeping], 0, 0⟩ :=
    Relation.ReflTransGen.tail
      (Relation.ReflTransGen.tail
        (Relation.ReflTransGen.tail
          (Relation.ReflTransGen.tail
            (Relation.ReflTransGen.tail Relation.ReflTransGen.refl step1)
            step2)
          step3)
        step4)
      step5
  have hnotdone : ¬ allDone ⟨[], [[], []], [WPhase.done, WPhase.sleeping], 0, 0⟩ := by
    intro h
    have := h WPhase.sleeping (by simp)
    cases this
  have hstuck : ∀ s, Step ⟨[], [[], []], [WPhase.done, WPhase.sleeping], 0, 0⟩ s →
      s = ⟨[], [[], []], [WPhase.done, WPhase.sleeping], 0, 0⟩ := by
    intro s h
    cases h with
    | start i hph =>
        rcases get?_pair _ _ _ _ hph with ⟨_, h2⟩ | ⟨_, h2⟩ <;> cases h2
    | popOwn i cs rest hph hdq =>
        rcases get?_pair _ _ _ _ hdq with ⟨_, h2⟩ | ⟨_, h2⟩ <;> cases h2
    | popGlobal i cs br g2 hph hdq hg =>
        cases hg
    | steal i j cs rest hph hdq hg hdj =>
        rcases get?_pair _ _ _ _ hdj with ⟨_, h2⟩ | ⟨_, h2⟩ <;> cases h2
    | exitLast i hph hg hdq hact =>
        rcases get?_pair _ _ _ _ hph with ⟨_, h2⟩ | ⟨_, h2⟩ <;> cases h2
    | sleepMore i hph hg hdq hact =>
        rcases get?_pair _ _ _ _ hph with ⟨_, h2⟩ | ⟨_, h2⟩ <;> cases h2
    | wakeUp i hph hw =>
        exact absurd hw (by decide)
    | spin i hph hw =>
        rfl
  refine ⟨hreach, ⟨rfl, by intro d hd; simp at hd; exact hd⟩,
    hnotdone, hstuck, ?_⟩
  intro s hs
  have hfix : s = ⟨[], [[], []], [WPhase.done, WPhase.sleeping], 0, 0⟩ := by
    induction hs with
    | refl => rfl
    | tail hab hbc ih =>
        rw [ih] at hbc
        exact hstuck _ hbc
  rw [hfix]
  exact hnotdone

end Tsumugu
